import Mathlib

/-!
Verification of the SRP-6a client (`SecureRemotePassword`) and its
modular-arithmetic / codec kernel (`ModularArithmetic.ts`, `StringUtils.ts`).

Conventions of the shallow embedding:
* JSBI big integers become `Int`.  `BI.remainder` is JavaScript's truncated
  remainder, embedded as `Int.tmod`; `BI.divide` on the non-negative operands
  that actually occur is `Nat` division.
* A function that can `throw RangeError` returns `Except String _`; the
  carried string is the thrown message.
* `modPow` calls itself recursively and that recursion does not terminate for
  exponent 0, so it is embedded with an explicit gas parameter
  (`modPowG`); `none` means the recursion consumed all gas, and a result
  that is `none` for every gas amount is a divergence of the source program.
* Byte arrays (`Uint8Array`) become `List Nat` (each entry < 256), strings
  become `List Char` (for hex/base64 data) or `String` (opaque identity /
  password text).
* The SHA-256 digest (`crypto.subtle.digest`, an external primitive per the
  spec) is a parameter `H : List Char → List Nat` of every engine operation.
-/

namespace Srp

/-! ## Modular arithmetic kernel (ModularArithmetic.ts) -/

/-- `toZn(x, N)` from the source: smallest non-negative representative of
`x` mod `N`; throws when `N ≤ 0`.  `BI.remainder` is truncated remainder,
i.e. `Int.tmod`. -/
def toZn (x N : Int) : Except String Int :=
  if N ≤ 0 then .error "n must be > 0"
  else
    let aZn := Int.tmod x N
    .ok (if aZn < 0 then aZn + N else aZn)

/-- Loop body of `eGcd` from the source.  The source keeps `a`, `b` as
(always non-negative, by the precondition check) big integers; here they are
`Nat` while the Bezout accumulators `x y u v` stay `Int`.  Each iteration:
`q = b / a`, `r = b % a`, `m = x - u*q`, `n = y - v*q`, then
`(a, b, x, y, u, v) ← (r, a, u, v, m, n)`. -/
def eGcdLoop : Nat → Nat → Int → Int → Int → Int → Int × Int × Int
  | 0, b, x, y, _, _ => ((b : Int), x, y)
  | (a + 1), b, x, y, u, v =>
      eGcdLoop (b % (a + 1)) (a + 1) u v
        (x - u * ((b / (a + 1) : Nat) : Int)) (y - v * ((b / (a + 1) : Nat) : Int))
termination_by a => a
decreasing_by exact Nat.mod_lt _ (Nat.succ_pos a)

/-- `eGcd(a, b)` from the source: iterative extended Euclid; throws when
`a ≤ 0` or `b ≤ 0`. -/
def eGcd (a b : Int) : Except String (Int × Int × Int) :=
  if a ≤ 0 ∨ b ≤ 0 then .error "a and b MUST be > 0"
  else .ok (eGcdLoop a.toNat b.toNat 0 1 1 0)

/-- `modInv(a, n)` from the source: `eGcd(toZn(a, n), n)`, error when the
gcd is not 1, otherwise `toZn(x, n)`.  (The source interpolates `a` and `n`
into its error message; the embedding carries a fixed message, which is all
the claims use.) -/
def modInv (a n : Int) : Except String Int :=
  match toZn a n with
  | .error e => .error e
  | .ok az =>
    match eGcd az n with
    | .error e => .error e
    | .ok (g, x, _) =>
      if g ≠ 1 then .error "does not have inverse modulo n"
      else toZn x n

/-- The `while (currExp > 0)` loop of `modPow`: the exponent is positive
there, so it is a `Nat`.  One iteration: if `currExp` is odd multiply
`result` by `base` mod `N`; halve `currExp`; square `base` mod `N`.
Operands of the source's `BI.remainder` are non-negative here, so it agrees
with `%` (`Int.emod`). -/
def modPowLoop (N : Int) : Int → Int → Nat → Int
  | _, result, 0 => result
  | base, result, (e + 1) =>
      modPowLoop N ((base ^ 2) % N) (if (e + 1) % 2 = 1 then (result * base) % N else result)
        ((e + 1) / 2)
termination_by _ _ e => e
decreasing_by exact Nat.div_lt_self (Nat.succ_pos e) one_lt_two

/-- `modPow(x, y, N)` from the source, with explicit gas for its
self-recursion: throws when `N ≤ 1`; for `y ≤ 0` it returns
`modInv(modPow(base, |y|, N), N)` (which never terminates when `y = 0`,
because `|0| = 0` recurses forever); for `y > 0` it runs the
square-and-multiply loop.  `none` means the gas ran out before the source
program would have returned. -/
def modPowG : Nat → Int → Int → Int → Option (Except String Int)
  | 0, _, _, _ => none
  | (gas + 1), x, y, N =>
    if N ≤ 1 then some (.error "n must be > 1")
    else
      match toZn x N with
      | .error e => some (.error e)
      | .ok base =>
        if y ≤ 0 then
          match modPowG gas base |y| N with
          | none => none
          | some (.error e) => some (.error e)
          | some (.ok v) => some (modInv v N)
        else
          some (.ok (modPowLoop N base 1 y.toNat))

/-- `modPow` with enough gas for every terminating execution: the
self-recursion of the source is at most one level deep whenever it
terminates (only `y ≤ 0` recurses, and it recurses on `|y|`), so gas 2 is
exact; `modPow x 0 N = none` for `N > 1` reflects the real divergence. -/
def modPow (x y N : Int) : Option (Except String Int) :=
  modPowG 2 x y N

/-! ### Kernel lemmas -/

/-- Truncated remainder by a positive modulus is greater than `-N`. -/
theorem neg_lt_tmod (x N : Int) (hN : 0 < N) : -N < Int.tmod x N := by
  rcases x with m | m
  · exact lt_of_lt_of_le (by omega) (Int.tmod_nonneg _ (Int.ofNat_nonneg m))
  · rcases N with n | n
    · have h1 : Int.tmod (Int.negSucc m) (Int.ofNat n) = -(((m + 1) % n : Nat) : Int) := rfl
      rw [h1]
      have h2 : (Int.ofNat n : Int) = (n : Int) := rfl
      rw [h2] at hN ⊢
      have hn : 0 < n := by exact_mod_cast hN
      have := Nat.mod_lt (m + 1) hn
      omega
    · exact absurd hN (by exact Int.not_lt.mpr (le_of_lt (Int.negSucc_lt_zero n)))

/-- For a positive modulus `toZn` succeeds and computes the Euclidean
residue `x % N`. -/
theorem toZn_eq_emod (x N : Int) (hN : 0 < N) : toZn x N = .ok (x % N) := by
  unfold toZn
  rw [if_neg (by omega)]
  show Except.ok (if Int.tmod x N < 0 then Int.tmod x N + N else Int.tmod x N) = Except.ok (x % N)
  congr 1
  have hx : x % N = (Int.tmod x N) % N := by
    conv_lhs => rw [← Int.tmod_add_tdiv x N]
    rw [Int.add_mul_emod_self_left]
  have hlt : Int.tmod x N < N := Int.tmod_lt_of_pos x hN
  have hgt : -N < Int.tmod x N := neg_lt_tmod x N hN
  by_cases h : Int.tmod x N < 0
  · rw [if_pos h]
    have h2 : (Int.tmod x N + N * 1) % N = (Int.tmod x N) % N :=
      Int.add_mul_emod_self_left (Int.tmod x N) N 1
    rw [mul_one] at h2
    have h3 : (Int.tmod x N + N) % N = Int.tmod x N + N :=
      Int.emod_eq_of_lt (by omega) (by omega)
    omega
  · rw [if_neg h]
    push_neg at h
    have h3 : (Int.tmod x N) % N = Int.tmod x N := Int.emod_eq_of_lt h hlt
    omega

/-- Unfolding equation of `eGcdLoop` at a positive first argument. -/
theorem eGcdLoop_succ (a b : Nat) (x y u v : Int) (ha : a ≠ 0) :
    eGcdLoop a b x y u v =
      eGcdLoop (b % a) a u v (x - u * ((b / a : Nat) : Int)) (y - v * ((b / a : Nat) : Int)) := by
  obtain ⟨a', rfl⟩ : ∃ a', a = a' + 1 := ⟨a - 1, by omega⟩
  rw [eGcdLoop]

/-- The loop maintains the Bezout relations and returns
`(gcd, coefficients)`. -/
theorem eGcdLoop_spec (a0 b0 : Int) (a : Nat) :
    ∀ b : Nat, ∀ x y u v : Int,
      a0 * x + b0 * y = (b : Int) → a0 * u + b0 * v = (a : Int) →
      (eGcdLoop a b x y u v).1 = (Nat.gcd a b : Int) ∧
        a0 * (eGcdLoop a b x y u v).2.1 + b0 * (eGcdLoop a b x y u v).2.2 =
          (eGcdLoop a b x y u v).1 := by
  induction a using Nat.strong_induction_on with
  | _ a ih =>
    intro b x y u v hb ha
    match a with
    | 0 =>
      rw [eGcdLoop]
      exact ⟨by simp [Nat.gcd_zero_left], by simpa using hb⟩
    | (a' + 1) =>
      rw [eGcdLoop]
      have hrec := ih ((b % (a' + 1))) (Nat.mod_lt _ (Nat.succ_pos a')) (a' + 1)
        u v (x - u * ((b / (a' + 1) : Nat) : Int)) (y - v * ((b / (a' + 1) : Nat) : Int))
        ha ?_
      · refine ⟨?_, hrec.2⟩
        rw [hrec.1, Nat.gcd_rec (a' + 1) b]
      · have hdm : ((a' + 1 : Nat) : Int) * ((b / (a' + 1) : Nat) : Int) +
            ((b % (a' + 1) : Nat) : Int) = (b : Int) := by
          exact_mod_cast congrArg (Nat.cast : Nat → Int) (Nat.div_add_mod b (a' + 1))
        have hcast : ((b % (a' + 1) : Nat) : Int) =
            (b : Int) - ((a' + 1 : Nat) : Int) * ((b / (a' + 1) : Nat) : Int) := by
          linarith
        rw [hcast, ← hb, ← ha]
        ring

/-- The square-and-multiply loop computes `result * base ^ e mod N` for a
positive exponent. -/
theorem modPowLoop_spec (N : Int) (e : Nat) :
    ∀ base result : Int, 0 < e → modPowLoop N base result e = (result * base ^ e) % N := by
  induction e using Nat.strong_induction_on with
  | _ e ih =>
    intro base result he
    obtain ⟨e', rfl⟩ : ∃ e', e = e' + 1 := ⟨e - 1, by omega⟩
    rw [modPowLoop]
    by_cases h0 : (e' + 1) / 2 = 0
    · have he1 : e' = 0 := by omega
      subst he1
      rw [h0, if_pos (by norm_num), modPowLoop]
      simp [pow_one]
    · have hlt : (e' + 1) / 2 < e' + 1 := Nat.div_lt_self (Nat.succ_pos e') one_lt_two
      rw [ih _ hlt _ _ (Nat.pos_of_ne_zero h0)]
      set k := (e' + 1) / 2 with hk
      have hsq : ((base ^ 2) % N) ^ k % N = (base ^ 2) ^ k % N := by
        have hme : (base ^ 2 % N) ≡ base ^ 2 [ZMOD N] := Int.emod_emod (base ^ 2) N
        exact hme.pow k
      by_cases hodd : (e' + 1) % 2 = 1
      · rw [if_pos hodd]
        have hexp : 2 * k + 1 = e' + 1 := by omega
        rw [Int.mul_emod (result * base % N) _ N, Int.emod_emod, hsq, ← Int.mul_emod]
        rw [← hexp, pow_succ base (2 * k), pow_mul base 2 k]
        ring_nf
      · rw [if_neg hodd]
        have hexp : 2 * k = e' + 1 := by omega
        rw [Int.mul_emod result _ N, hsq, ← Int.mul_emod]
        rw [← hexp, pow_mul]

/-- `modPow` with any amount of gas at least 1 succeeds on a positive
exponent and a modulus above 1, and computes the Euclidean residue
`x ^ y mod N`. -/
theorem modPowG_pos (gas : Nat) (x y N : Int) (hgas : 1 ≤ gas) (hN : 1 < N) (hy : 0 < y) :
    modPowG gas x y N = some (.ok (x ^ y.toNat % N)) := by
  obtain ⟨g', rfl⟩ : ∃ g', gas = g' + 1 := ⟨gas - 1, by omega⟩
  rw [modPowG]
  rw [if_neg (by omega), toZn_eq_emod x N (by omega)]
  dsimp only
  rw [if_neg (by omega)]
  have hpos : 0 < y.toNat := by omega
  rw [modPowLoop_spec N y.toNat _ _ hpos, one_mul]
  have hme : (x % N) ≡ x [ZMOD N] := Int.emod_emod x N
  rw [hme.pow y.toNat]

/-- With `N > 1`, `modPow x 0 N` exhausts any amount of gas: the source
recursion `modPow(x, 0, N) = modInv(modPow(toZn(x,N), |0|, N), N)` never
terminates. -/
theorem modPowG_zero_diverges (gas : Nat) (x N : Int) (hN : 1 < N) :
    modPowG gas x 0 N = none := by
  induction gas generalizing x with
  | zero => rw [modPowG]
  | succ g ih =>
    rw [modPowG]
    rw [if_neg (by omega), toZn_eq_emod x N (by omega)]
    dsimp only
    rw [if_pos le_rfl, abs_zero, ih (x % N)]

/-- `modPow` on a positive exponent: plain restatement of `modPowG_pos`
at the gas bound used by the embedding. -/
theorem modPow_pos (x y N : Int) (hN : 1 < N) (hy : 0 < y) :
    modPow x y N = some (.ok (x ^ y.toNat % N)) :=
  modPowG_pos 2 x y N (by omega) hN hy

/-- `modPow` throws the `RangeError` whenever `N ≤ 1`, with any gas left. -/
theorem modPowG_err_of_le_one (gas : Nat) (x y N : Int) (hgas : 1 ≤ gas) (hN : N ≤ 1) :
    modPowG gas x y N = some (.error "n must be > 1") := by
  obtain ⟨g', rfl⟩ : ∃ g', gas = g' + 1 := ⟨gas - 1, by omega⟩
  rw [modPowG, if_pos hN]

/-- The gcd is invariant under replacing the first argument by its Euclidean
residue. -/
theorem gcd_emod_left_eq (a n : Int) : Int.gcd (a % n) n = Int.gcd a n := by
  apply Nat.dvd_antisymm
  · rw [← Int.natCast_dvd_natCast]
    refine Int.dvd_gcd ?_ Int.gcd_dvd_right
    have hd1 : (Int.gcd (a % n) n : Int) ∣ a % n := Int.gcd_dvd_left
    have hd2 : (Int.gcd (a % n) n : Int) ∣ n := Int.gcd_dvd_right
    calc (Int.gcd (a % n) n : Int) ∣ a % n + n * (a / n) :=
          dvd_add hd1 (Dvd.dvd.mul_right hd2 (a / n))
      _ = a := Int.emod_add_ediv a n
  · rw [← Int.natCast_dvd_natCast]
    refine Int.dvd_gcd ?_ Int.gcd_dvd_right
    have hd1 : (Int.gcd a n : Int) ∣ a := Int.gcd_dvd_left
    have hd2 : (Int.gcd a n : Int) ∣ n := Int.gcd_dvd_right
    calc (Int.gcd a n : Int) ∣ a - n * (a / n) := dvd_sub hd1 (Dvd.dvd.mul_right hd2 (a / n))
      _ = a % n := (Int.emod_def a n).symm

/-- For positive inputs `eGcd` returns the gcd together with valid Bezout
coefficients. -/
theorem eGcd_ok (a b : Int) (ha : 0 < a) (hb : 0 < b) :
    ∃ x y : Int, eGcd a b = .ok ((Int.gcd a b : Int), x, y) ∧
      a * x + b * y = (Int.gcd a b : Int) := by
  have hspec := eGcdLoop_spec a b a.toNat b.toNat 0 1 1 0
    (by rw [Int.toNat_of_nonneg (by omega)]; ring) (by rw [Int.toNat_of_nonneg (by omega)]; ring)
  have hgcd : (Nat.gcd a.toNat b.toNat : Int) = (Int.gcd a b : Int) := by
    have h1 : a.toNat = a.natAbs := by omega
    have h2 : b.toNat = b.natAbs := by omega
    rw [Int.gcd_def, h1, h2]
  refine ⟨(eGcdLoop a.toNat b.toNat 0 1 1 0).2.1, (eGcdLoop a.toNat b.toNat 0 1 1 0).2.2, ?_, ?_⟩
  · unfold eGcd
    rw [if_neg (by omega)]
    congr 1
    rw [← hgcd, ← hspec.1]
  · rw [← hgcd, ← hspec.1]
    exact hspec.2

/-- Success characterisation of `modInv`: an `ok` answer is the canonical
inverse, `n` is necessarily above 1, and the answer lies in `[0, n)`. -/
theorem modInv_ok_elim (a n r : Int) (h : modInv a n = .ok r) :
    1 < n ∧ 0 ≤ r ∧ r < n ∧ (r * a) % n = 1 := by
  unfold modInv at h
  by_cases hn : 0 < n
  · rw [toZn_eq_emod a n hn] at h
    dsimp only at h
    by_cases haz : 0 < a % n
    · obtain ⟨x, y, hok, hbez⟩ := eGcd_ok (a % n) n haz hn
      rw [hok] at h
      dsimp only at h
      by_cases hg : ((Int.gcd (a % n) n : Int)) ≠ 1
      · rw [if_pos hg] at h
        exact absurd h (by simp)
      · rw [if_neg hg] at h
        push_neg at hg
        have hn1 : 1 < n := by
          by_contra hc
          have hn1 : n = 1 := by omega
          subst hn1
          simp [Int.emod_one] at haz
        rw [toZn_eq_emod x n hn] at h
        have hr : r = x % n := by injection h with h'; omega
        subst hr
        refine ⟨hn1, Int.emod_nonneg x (by omega), Int.emod_lt_of_pos x hn, ?_⟩
        have hbez1 : (a % n) * x + n * y = 1 := by rw [hg] at hbez; exact hbez
        have hme1 : (x % n) * a ≡ x * a [ZMOD n] :=
          Int.ModEq.mul (Int.emod_emod x n) (Int.ModEq.refl a)
        have hme2 : x * a ≡ x * (a % n) [ZMOD n] :=
          Int.ModEq.mul (Int.ModEq.refl x) (Int.ModEq.symm (Int.emod_emod a n))
        have hme3 : x * (a % n) ≡ 1 [ZMOD n] := by
          have heq : x * (a % n) = 1 + n * (-y) := by linarith [hbez1]
          show (x * (a % n)) % n = 1 % n
          rw [heq, Int.add_mul_emod_self_left]
        have hfin : ((x % n) * a) % n = 1 % n := (hme1.trans (hme2.trans hme3))
        rw [hfin, Int.emod_eq_of_lt (by omega) (by omega)]
    · exfalso
      have haz0 : 0 ≤ a % n := Int.emod_nonneg a (by omega)
      unfold eGcd at h
      rw [if_pos (by omega)] at h
      simp at h
  · exfalso
    unfold toZn at h
    rw [if_pos (by omega)] at h
    simp at h

/-- Error characterisation of `modInv`: it throws exactly when no inverse
exists or the modulus is at most 1 (this includes the `n = 1` case, where
`toZn` maps everything to 0 and `eGcd` rejects the 0). -/
theorem modInv_error_iff (a n : Int) :
    (∃ e, modInv a n = .error e) ↔ (Int.gcd a n ≠ 1 ∨ n ≤ 1) := by
  constructor
  · rintro ⟨e, he⟩
    by_contra hc
    push_neg at hc
    obtain ⟨hg, hn⟩ := hc
    unfold modInv at he
    rw [toZn_eq_emod a n (by omega)] at he
    dsimp only at he
    have haz : 0 < a % n := by
      rcases lt_or_eq_of_le (Int.emod_nonneg a (by omega : n ≠ 0)) with h | h
      · exact h
      · exfalso
        have hdvd : n ∣ a := Int.dvd_of_emod_eq_zero h.symm
        have : Int.gcd a n = n.natAbs := Int.gcd_eq_right hdvd
        omega
    obtain ⟨x, y, hok, _⟩ := eGcd_ok (a % n) n haz (by omega)
    rw [hok] at he
    dsimp only at he
    rw [gcd_emod_left_eq] at he
    rw [if_neg (not_ne_iff.mpr (by exact_mod_cast hg))] at he
    rw [toZn_eq_emod x n (by omega)] at he
    exact absurd he (by simp)
  · intro h
    by_cases hn0 : n ≤ 0
    · refine ⟨"n must be > 0", ?_⟩
      unfold modInv toZn
      rw [if_pos hn0]
    · push_neg at hn0
      by_cases hn1 : n = 1
      · subst hn1
        refine ⟨"a and b MUST be > 0", ?_⟩
        unfold modInv
        rw [toZn_eq_emod a 1 (by omega)]
        dsimp only
        rw [Int.emod_one]
        unfold eGcd
        rw [if_pos (by omega)]
      · have hn : 1 < n := by omega
        have hg : Int.gcd a n ≠ 1 := by
          rcases h with h | h
          · exact h
          · omega
        by_cases haz : 0 < a % n
        · obtain ⟨x, y, hok, _⟩ := eGcd_ok (a % n) n haz (by omega)
          refine ⟨"does not have inverse modulo n", ?_⟩
          unfold modInv
          rw [toZn_eq_emod a n (by omega)]
          dsimp only
          rw [hok]
          dsimp only
          rw [gcd_emod_left_eq]
          rw [if_pos (by exact_mod_cast hg)]
        · refine ⟨"a and b MUST be > 0", ?_⟩
          unfold modInv
          rw [toZn_eq_emod a n (by omega)]
          dsimp only
          have haz0 : 0 ≤ a % n := Int.emod_nonneg a (by omega)
          unfold eGcd
          rw [if_pos (by omega)]

/-- The composition `modularInverse(modularPow(x, y, N), N)` as the source
would evaluate it: a thrown error or a divergence of the inner `modPow`
propagates. -/
def modPowThenInv (x y N : Int) : Option (Except String Int) :=
  match modPow x y N with
  | none => none
  | some (.error e) => some (.error e)
  | some (.ok v) => some (modInv v N)

/-! ## Claim theorems about the kernel -/

/-- Claim C6: for strictly positive `a`, `b`, `eGcd a b` returns a triple
`(g, x, y)` with `a*x + b*y = g` and `g = gcd a b`; it throws the
`RangeError` exactly when `a ≤ 0` or `b ≤ 0`. -/
theorem claimC6_eGcd_spec (a b : Int) :
    (0 < a → 0 < b → ∃ x y : Int, eGcd a b = .ok ((Int.gcd a b : Int), x, y) ∧
      a * x + b * y = (Int.gcd a b : Int)) ∧
    ((∃ e, eGcd a b = .error e) ↔ a ≤ 0 ∨ b ≤ 0) := by
  refine ⟨fun ha hb => eGcd_ok a b ha hb, ?_, ?_⟩
  · rintro ⟨e, he⟩
    by_contra hc
    push_neg at hc
    unfold eGcd at he
    rw [if_neg (by omega)] at he
    exact absurd he (by simp)
  · intro h
    refine ⟨"a and b MUST be > 0", ?_⟩
    unfold eGcd
    rw [if_pos h]

/-- Witness for C6 at `a = 6`, `b = 4`. -/
theorem claimC6_eGcd_spec_witness :
    ∃ x y : Int, eGcd 6 4 = .ok ((Int.gcd 6 4 : Int), x, y) ∧
      6 * x + 4 * y = (Int.gcd 6 4 : Int) :=
  (claimC6_eGcd_spec 6 4).1 (by norm_num) (by norm_num)

/-- Claim C3 (code bug): the claim says `modPow(x, 0, N)` returns 1, but the
source's `y ≤ 0` branch calls `modPow(base, |0|, N)` with `|0| = 0` again,
so the recursion never terminates: with the modulus check passed
(`N > 1`), every amount of gas is exhausted.  Instantiated at the failing
input `x = 2, y = 0, N = 5`, and stated for every `x` and every `N > 1`. -/
theorem claimC3_modPow_zero_diverges :
    (∀ gas : Nat, modPowG gas 2 0 5 = none) ∧ modPow 2 0 5 = none :=
  ⟨fun gas => modPowG_zero_diverges gas 2 5 (by norm_num),
   modPowG_zero_diverges 2 2 5 (by norm_num)⟩

/-- Claim C2: for positive exponents `modPow` computes the mathematical
residue `x ^ y mod N` and throws exactly when `N ≤ 1`; and whenever both
`modPow x (-y) N` and `modInv (modPow x y N) N` are defined (terminate
without throwing) they agree. -/
theorem claimC2_modPow_spec (x N y : Int) :
    (0 < y → 1 < N → modPow x y N = some (.ok (x ^ y.toNat % N))) ∧
    (0 < y → ((∃ e, modPow x y N = some (.error e)) ↔ N ≤ 1)) ∧
    (∀ a b : Int, modPow x (-y) N = some (.ok a) → modPowThenInv x y N = some (.ok b) →
      a = b) := by
  refine ⟨fun hy hN => modPow_pos x y N hN hy, fun hy => ⟨?_, ?_⟩, ?_⟩
  · rintro ⟨e, he⟩
    by_contra hc
    push_neg at hc
    rw [modPow_pos x y N hc hy] at he
    exact absurd he (by simp)
  · intro hN
    exact ⟨"n must be > 1", modPowG_err_of_le_one 2 x y N (by norm_num) hN⟩
  · intro a b ha hb
    by_cases hN : 1 < N
    · rcases lt_trichotomy y 0 with hy | hy | hy
      · -- y < 0: the left side is the positive-exponent run, the right side
        -- inverts twice.
        have hstep : modPow x (-y) N = some (.ok (x ^ (-y).toNat % N)) :=
          modPow_pos x (-y) N hN (by omega)
        rw [hstep] at ha
        have ha' : a = x ^ (-y).toNat % N := by
          injection ha with ha1
          injection ha1 with ha2
          omega
        have hinner : modPowG 1 (x % N) |y| N = some (.ok (x ^ (-y).toNat % N)) := by
          rw [modPowG_pos 1 (x % N) |y| N le_rfl hN (abs_pos.mpr (by omega))]
          have hme : (x % N) ≡ x [ZMOD N] := Int.emod_emod x N
          have habs : |y|.toNat = (-y).toNat := by
            have : |y| = -y := abs_of_neg hy
            rw [this]
          rw [habs, hme.pow ((-y).toNat)]
        have houter : modPow x y N = some (modInv (x ^ (-y).toNat % N) N) := by
          unfold modPow
          rw [modPowG]
          rw [if_neg (by omega), toZn_eq_emod x N (by omega)]
          dsimp only
          rw [if_pos (by omega), hinner]
        unfold modPowThenInv at hb
        rw [houter] at hb
        rcases hv : modInv (x ^ (-y).toNat % N) N with e | v
        · rw [hv] at hb
          dsimp only at hb
          exact absurd hb (by simp)
        · rw [hv] at hb
          dsimp only at hb
          have hb' : modInv v N = .ok b := by simpa using hb
          obtain ⟨hn1, hvpos, hvlt, hvinv⟩ := modInv_ok_elim _ _ _ hv
          obtain ⟨_, hbpos, hblt, hbinv⟩ := modInv_ok_elim _ _ _ hb'
          -- b ≡ b * (v * V) = (b * v) * V ≡ V, both reduced in [0, N)
          have hV0 : 0 ≤ x ^ (-y).toNat % N := Int.emod_nonneg _ (by omega)
          have hVlt : x ^ (-y).toNat % N < N := Int.emod_lt_of_pos _ (by omega)
          have hme1 : b * (v * (x ^ (-y).toNat % N)) ≡ b * 1 [ZMOD N] := by
            refine Int.ModEq.mul (Int.ModEq.refl b) ?_
            show (v * (x ^ (-y).toNat % N)) % N = 1 % N
            rw [hvinv, Int.emod_eq_of_lt (by omega) (by omega)]
          have hme2 : (b * v) * (x ^ (-y).toNat % N) ≡ 1 * (x ^ (-y).toNat % N) [ZMOD N] := by
            refine Int.ModEq.mul ?_ (Int.ModEq.refl _)
            show (b * v) % N = 1 % N
            rw [hbinv, Int.emod_eq_of_lt (by omega) (by omega)]
          have hcomb : b ≡ x ^ (-y).toNat % N [ZMOD N] := by
            have h1 : b * (v * (x ^ (-y).toNat % N)) = (b * v) * (x ^ (-y).toNat % N) := by ring
            have h2 : b ≡ b * (v * (x ^ (-y).toNat % N)) [ZMOD N] := by
              have := hme1.symm
              simpa using this
            have h3 : (b * v) * (x ^ (-y).toNat % N) ≡ x ^ (-y).toNat % N [ZMOD N] := by
              simpa using hme2
            rw [h1] at h2
            exact h2.trans h3
          have hbval : b % N = (x ^ (-y).toNat % N) % N := hcomb
          rw [Int.emod_eq_of_lt hbpos hblt, Int.emod_emod] at hbval
          omega
      · -- y = 0: the left side diverges, contradiction with `ha`.
        exfalso
        subst hy
        rw [neg_zero] at ha
        rw [show modPow x 0 N = none from modPowG_zero_diverges 2 x N hN] at ha
        exact absurd ha (by simp)
      · -- y > 0: both sides are literally `modInv` of the same value.
        have hstep : modPow x y N = some (.ok (x ^ y.toNat % N)) := modPow_pos x y N hN hy
        unfold modPowThenInv at hb
        rw [hstep] at hb
        dsimp only at hb
        have hinner : modPowG 1 (x % N) |(-y)| N = some (.ok (x ^ y.toNat % N)) := by
          rw [modPowG_pos 1 (x % N) |(-y)| N le_rfl hN (abs_pos.mpr (by omega))]
          have hme : (x % N) ≡ x [ZMOD N] := Int.emod_emod x N
          have habs : |(-y)|.toNat = y.toNat := by
            rw [abs_neg, abs_of_pos hy]
          rw [habs, hme.pow y.toNat]
        have houter : modPow x (-y) N = some (modInv (x ^ y.toNat % N) N) := by
          unfold modPow
          rw [modPowG]
          rw [if_neg (by omega), toZn_eq_emod x N (by omega)]
          dsimp only
          rw [if_pos (by omega), hinner]
        rw [houter] at ha
        rcases hv : modInv (x ^ y.toNat % N) N with e | v
        · rw [hv] at ha
          exact absurd ha (by simp)
        · rw [hv] at ha hb
          injection ha with ha1
          injection hb with hb1
          injection ha1 with ha2
          injection hb1 with hb2
          omega
    · -- N ≤ 1: the left side throws, contradiction with `ha`.
      exfalso
      rw [show modPow x (-y) N = some (.error "n must be > 1") from
        modPowG_err_of_le_one 2 x (-y) N (by norm_num) (by omega)] at ha
      exact absurd ha (by simp)

/-- Witness for C2 at `x = 3`, `y = 5`, `N = 7` (where
`3 ^ 5 mod 7 = 5`, its inverse mod 7 is 3, and the inverse of 3 is 5
again). -/
theorem claimC2_modPow_spec_witness :
    modPow 3 5 7 = some (.ok ((3 : Int) ^ (5 : Int).toNat % 7)) ∧
    ((∃ e, modPow 3 5 7 = some (.error e)) ↔ (7 : Int) ≤ 1) ∧
    (3 : Int) = 3 :=
  ⟨(claimC2_modPow_spec 3 7 5).1 (by norm_num) (by norm_num),
   (claimC2_modPow_spec 3 7 5).2.1 (by norm_num),
   (claimC2_modPow_spec 3 7 5).2.2 3 3
     (by simp [modPow, modPowG, modPowLoop, toZn_eq_emod, modInv, eGcd, eGcdLoop])
     (by simp [modPowThenInv, modPow, modPowG, modPowLoop, toZn_eq_emod, modInv, eGcd,
       eGcdLoop])⟩

/-- Claim C7 counterexample: at `a = 2`, `n = 1` we have `gcd(2,1) = 1` and
`n > 0`, so the claim says `modInv` must succeed, but the code throws:
`toZn(2,1) = 0` and `eGcd(0,1)` rejects the zero argument. -/
theorem claimC7_counterexample :
    modInv 2 1 = .error "a and b MUST be > 0" ∧ Int.gcd 2 1 = 1 ∧ ¬ ((1 : Int) ≤ 0) := by
  refine ⟨by norm_num [modInv, toZn_eq_emod, eGcd], by norm_num, by norm_num⟩

/-- Claim C7 as amended: for `gcd(a,n) = 1` and `n > 1`, `modInv a n`
returns `r ∈ [0, n)` with `r * a ≡ 1 (mod n)`; it throws exactly when
`gcd(a,n) ≠ 1` or `n ≤ 1` (the original claim had `n ≤ 0`, which misses
the `n = 1` throw exhibited by the counterexample). -/
theorem claimC7_modInv_amended (a n : Int) :
    (Int.gcd a n = 1 → 1 < n → ∃ r, modInv a n = .ok r ∧ 0 ≤ r ∧ r < n ∧ (r * a) % n = 1) ∧
    ((∃ e, modInv a n = .error e) ↔ (Int.gcd a n ≠ 1 ∨ n ≤ 1)) := by
  refine ⟨?_, modInv_error_iff a n⟩
  intro hg hn
  rcases hv : modInv a n with e | r
  · exfalso
    have := (modInv_error_iff a n).mp ⟨e, hv⟩
    omega
  · obtain ⟨_, h1, h2, h3⟩ := modInv_ok_elim a n r hv
    exact ⟨r, rfl, h1, h2, h3⟩

/-- Witness for the amended C7 at `a = 3`, `n = 7` (inverse 5). -/
theorem claimC7_modInv_amended_witness :
    ∃ r, modInv 3 7 = .ok r ∧ 0 ≤ r ∧ r < 7 ∧ (r * 3) % 7 = 1 :=
  (claimC7_modInv_amended 3 7).1 (by norm_num) (by norm_num)

/-! ## String / codec utilities (StringUtils.ts)

Strings are `List Char`, byte arrays are `List Nat` with entries below
256. -/

/-- Hex digit table.  Modelled from the spec: `Constants.ts` (which holds
`HEX_DIGITS`) is not among the sources; the spec's canonical hex form and
the code's other hex producer (`Number.toString(16)`, lowercase) fix it to
the standard lowercase table. -/
def HEX_DIGITS : List Char :=
  "0123456789abcdef".toList

/-- `n.toString(16)` for a non-negative number: lowercase hex digits,
no prefix, and `"0"` for 0. -/
def natToHex (n : Nat) : List Char :=
  if _h : n < 16 then [HEX_DIGITS.getD n '0']
  else natToHex (n / 16) ++ [HEX_DIGITS.getD (n % 16) '0']
termination_by n
decreasing_by exact Nat.div_lt_self (by omega) (by norm_num)

/-- `padZeroPrefix` from the source: left-pad a 1-digit hex string to two
digits. -/
def padZeroPrefix (inp : List Char) : List Char :=
  if inp.length = 1 then '0' :: inp else inp

/-- `hexOfArray` from the source: concatenate `toString(16)` of each byte,
zero-padded to two digits.  (`hexOfBuff` is the same function after the
`ArrayBuffer` → `Uint8Array` view, so it is also this.) -/
def hexOfArray : List Nat → List Char
  | [] => []
  | b :: rest => padZeroPrefix (natToHex b) ++ hexOfArray rest

/-- The counting loop of `trimHexZeroes`: number of leading `'0'`
characters. -/
def countLeadingZeroes : List Char → Nat
  | [] => 0
  | c :: rest => if c = '0' then countLeadingZeroes rest + 1 else 0

/-- `trimHexZeroes` from the source: strip leading zero digits, keeping one
back when the stripped remainder has odd length; prepend `'0'` to an
odd-length string without leading zeroes. -/
def trimHexZeroes (inp : List Char) : List Char :=
  let countZeroes := countLeadingZeroes inp
  if 0 < countZeroes then
    if (inp.length - countZeroes) % 2 = 0 then List.drop countZeroes inp
    else List.drop (countZeroes - 1) inp
  else
    if inp.length % 2 = 0 then inp else '0' :: inp

/-- Modelled from the spec (refinement reference for C8): "strip leading
zero digits; if the remaining digit count is even, keep it as-is; if odd,
re-add exactly one leading zero digit". -/
def specCanonicalHex (inp : List Char) : List Char :=
  let t := inp.dropWhile (fun c => c = '0')
  if t.length % 2 = 0 then t else '0' :: t

/-! ### Hex canonicalization lemmas -/

/-- The zero-counting loop never counts past the end. -/
theorem countLeadingZeroes_le (inp : List Char) : countLeadingZeroes inp ≤ inp.length := by
  induction inp with
  | nil => simp [countLeadingZeroes]
  | cons c rest ih =>
    rw [countLeadingZeroes]
    by_cases h : c = '0'
    · rw [if_pos h]
      simp
      omega
    · rw [if_neg h]
      simp

/-- Dropping the leading-zero run is `dropWhile` on `'0'`. -/
theorem dropWhile_eq_drop_count (inp : List Char) :
    inp.dropWhile (fun c => c = '0') = inp.drop (countLeadingZeroes inp) := by
  induction inp with
  | nil => rfl
  | cons c rest ih =>
    rw [countLeadingZeroes, List.dropWhile_cons]
    by_cases h : c = '0'
    · rw [if_pos h, if_pos (by simp [h]), ih]
      rfl
    · rw [if_neg h, if_neg (by simp [h])]
      rfl

/-- After dropping the counted zeroes no leading zero remains. -/
theorem countLeadingZeroes_drop (inp : List Char) :
    countLeadingZeroes (inp.drop (countLeadingZeroes inp)) = 0 := by
  induction inp with
  | nil => rfl
  | cons c rest ih =>
    rw [countLeadingZeroes]
    by_cases h : c = '0'
    · rw [if_pos h]
      exact ih
    · rw [if_neg h]
      rw [List.drop_zero, countLeadingZeroes, if_neg h]

/-- Dropping one zero fewer than the full run keeps exactly one `'0'` in
front. -/
theorem drop_pred_count (inp : List Char) (h : 0 < countLeadingZeroes inp) :
    inp.drop (countLeadingZeroes inp - 1) = '0' :: inp.drop (countLeadingZeroes inp) := by
  induction inp with
  | nil => simp [countLeadingZeroes] at h
  | cons c rest ih =>
    rw [countLeadingZeroes] at h ⊢
    by_cases hc : c = '0'
    · rw [if_pos hc] at h ⊢
      subst hc
      by_cases h0 : 0 < countLeadingZeroes rest
      · have e1 : countLeadingZeroes rest + 1 - 1 = (countLeadingZeroes rest - 1) + 1 := by
          omega
        rw [e1, List.drop_succ_cons, List.drop_succ_cons]
        exact ih h0
      · have hz : countLeadingZeroes rest = 0 := by omega
        rw [hz]
        rfl
    · rw [if_neg hc] at h
      omega

/-- Claim C8: `trimHexZeroes` implements exactly the spec's
canonicalization rule (strip the leading zero digits, then re-add one
`'0'` if the remainder has odd length), and consequently every output has
even length and at most one leading zero digit. -/
theorem claimC8_trimHexZeroes_spec (inp : List Char) :
    trimHexZeroes inp = specCanonicalHex inp ∧
    (trimHexZeroes inp).length % 2 = 0 ∧
    countLeadingZeroes (trimHexZeroes inp) ≤ 1 := by
  have hle := countLeadingZeroes_le inp
  have hdw := dropWhile_eq_drop_count inp
  have hzero := countLeadingZeroes_drop inp
  have hlen : (inp.drop (countLeadingZeroes inp)).length =
      inp.length - countLeadingZeroes inp := List.length_drop _ _
  simp only [trimHexZeroes, specCanonicalHex]
  rw [hdw, hlen]
  by_cases hc : 0 < countLeadingZeroes inp
  · rw [if_pos hc]
    by_cases heven : (inp.length - countLeadingZeroes inp) % 2 = 0
    · rw [if_pos heven, if_pos heven]
      exact ⟨rfl, by rw [hlen]; omega, by rw [hzero]; omega⟩
    · rw [if_neg heven, if_neg heven]
      rw [drop_pred_count inp hc]
      refine ⟨rfl, ?_, ?_⟩
      · simp only [List.length_cons, hlen]
        omega
      · rw [countLeadingZeroes, if_pos rfl, hzero]
  · rw [if_neg hc]
    have hc0 : countLeadingZeroes inp = 0 := by omega
    have hz0 : countLeadingZeroes inp = 0 := hc0
    have hzinp : countLeadingZeroes inp = 0 := by
      have := hzero
      rw [hc0, List.drop_zero] at this
      exact this
    rw [hc0, List.drop_zero, Nat.sub_zero]
    by_cases heven : inp.length % 2 = 0
    · rw [if_pos heven]
      exact ⟨rfl, heven, by omega⟩
    · rw [if_neg heven]
      refine ⟨rfl, by simp only [List.length_cons]; omega, ?_⟩
      rw [countLeadingZeroes, if_pos rfl, hzinp]

/-! ## Base64 codec (StringUtils.ts) -/

/-- Base64 alphabet.  Modelled from the spec: `Constants.ts` (which holds
`BASE64`) is not among the sources; the spec prescribes the standard
alphabet with `=` padding, which the source decoder `num64OfBase64`
corroborates (capitals at 0-25, smalls at 26-51, digits at 52-61, `+` at
62, `/` at 63). -/
def BASE64 : List Char :=
  "ABCDEFGHIJKLMNOPQRSTUVWXYZabcdefghijklmnopqrstuvwxyz0123456789+/".toList

/-- `base64OfArray` from the source.  The source loops over the
`floor(len/3)` whole 3-byte groups and then handles the 1-or-2-byte
remainder with explicit `=` padding; the list recursion processes the same
groups left to right. -/
def base64OfArray : List Nat → List Char
  | b1 :: b2 :: b3 :: rest =>
      BASE64.getD (b1 >>> 2) ' ' ::
      BASE64.getD (((b1 &&& 3) <<< 4) + (b2 >>> 4)) ' ' ::
      BASE64.getD (((b2 &&& 15) <<< 2) + (b3 >>> 6)) ' ' ::
      BASE64.getD (b3 &&& 63) ' ' ::
      base64OfArray rest
  | [b1, b2] =>
      [BASE64.getD (b1 >>> 2) ' ',
       BASE64.getD (((b1 &&& 3) <<< 4) + (b2 >>> 4)) ' ',
       BASE64.getD ((b2 &&& 15) <<< 2) ' ', '=']
  | [b1] =>
      [BASE64.getD (b1 >>> 2) ' ', BASE64.getD ((b1 &&& 3) <<< 4) ' ', '=', '=']
  | [] => []

/-- `num64OfBase64` from the source: decode one base64 character code.
(The `charCode ≤ 57` branch is `charCode - 48 + 52`; the last branch is
`charCode - 97 + 26`.) -/
def num64OfBase64 (charCode : Nat) : Nat :=
  if charCode = 43 then 62
  else if charCode = 47 then 63
  else if charCode ≤ 57 then charCode + 4
  else if charCode ≤ 90 then charCode - 65
  else charCode - 71

/-- The backwards scan of `determinePadding`, expressed as a forward count
over the reversed string. -/
def countLeadingEq : List Char → Nat
  | [] => 0
  | c :: rest => if c = '=' then countLeadingEq rest + 1 else 0

/-- `determinePadding` from the source: number of trailing `'='`
characters. -/
def determinePadding (inp : List Char) : Nat :=
  countLeadingEq inp.reverse

/-- The main decoding loop of `arrayOfBase64`: each full quad of
characters yields three bytes. -/
def decodeQuads : List Char → List Nat
  | c1 :: c2 :: c3 :: c4 :: rest =>
      ((num64OfBase64 c1.toNat <<< 2) + (num64OfBase64 c2.toNat >>> 4)) ::
      (((num64OfBase64 c2.toNat &&& 15) <<< 4) + (num64OfBase64 c3.toNat >>> 2)) ::
      (((num64OfBase64 c3.toNat &&& 3) <<< 6) + num64OfBase64 c4.toNat) ::
      decodeQuads rest
  | _ => []

/-- The source's handling of the final (padded) quad: two bytes from three
characters when one `=`, one byte from two characters when two `=`. -/
def lastQuadBytes (paddingChars : Nat) (rest : List Char) : List Nat :=
  if paddingChars = 1 then
    match rest with
    | c1 :: c2 :: c3 :: _ =>
        [(num64OfBase64 c1.toNat <<< 2) + (num64OfBase64 c2.toNat >>> 4),
         ((num64OfBase64 c2.toNat &&& 15) <<< 4) + (num64OfBase64 c3.toNat >>> 2)]
    | _ => []
  else if paddingChars = 2 then
    match rest with
    | c1 :: c2 :: _ =>
        [(num64OfBase64 c1.toNat <<< 2) + (num64OfBase64 c2.toNat >>> 4)]
    | _ => []
  else []

/-- `arrayOfBase64` from the source: count the padding, decode the
`fullQuads` whole quads (all of them when there is no padding), then the
final quad according to the padding.  (The source preallocates the result
array; appending the decoded pieces produces the same bytes.  Inputs with
three or more `'='` at the end are not produced by the encoder and are not
modelled byte-exactly: the source would leave one extra zero byte from the
preallocation.) -/
def arrayOfBase64 (inp : List Char) : List Nat :=
  let paddingChars := determinePadding inp
  let fullQuads := if paddingChars = 0 then inp.length / 4 else inp.length / 4 - 1
  decodeQuads (inp.take (fullQuads * 4)) ++
    lastQuadBytes paddingChars (inp.drop (fullQuads * 4))

/-- `hexOfBase64` from the source. -/
def hexOfBase64 (inp : List Char) : List Char :=
  trimHexZeroes (hexOfArray (arrayOfBase64 inp))

/-! ### Bit-arithmetic facts about the 6-bit groups -/

theorem and_3_eq (b : Nat) : b &&& 3 = b % 4 := by
  have h := Nat.and_pow_two_sub_one_eq_mod b 2
  norm_num at h
  exact h

theorem and_15_eq (b : Nat) : b &&& 15 = b % 16 := by
  have h := Nat.and_pow_two_sub_one_eq_mod b 4
  norm_num at h
  exact h

theorem and_63_eq (b : Nat) : b &&& 63 = b % 64 := by
  have h := Nat.and_pow_two_sub_one_eq_mod b 6
  norm_num at h
  exact h

theorem encIdx1 (b : Nat) (h : b < 256) : b >>> 2 < 64 := by
  rw [Nat.shiftRight_eq_div_pow]
  omega

theorem encIdx2 (b1 b2 : Nat) (h1 : b1 < 256) (h2 : b2 < 256) :
    ((b1 &&& 3) <<< 4) + (b2 >>> 4) < 64 := by
  rw [Nat.shiftLeft_eq, Nat.shiftRight_eq_div_pow, and_3_eq]
  norm_num
  omega

theorem encIdx2t (b1 : Nat) (h1 : b1 < 256) : (b1 &&& 3) <<< 4 < 64 := by
  rw [Nat.shiftLeft_eq, and_3_eq]
  norm_num
  omega

theorem encIdx3 (b2 b3 : Nat) (h2 : b2 < 256) (h3 : b3 < 256) :
    ((b2 &&& 15) <<< 2) + (b3 >>> 6) < 64 := by
  rw [Nat.shiftLeft_eq, Nat.shiftRight_eq_div_pow, and_15_eq]
  norm_num
  omega

theorem encIdx3t (b2 : Nat) (h2 : b2 < 256) : (b2 &&& 15) <<< 2 < 64 := by
  rw [Nat.shiftLeft_eq, and_15_eq]
  norm_num
  omega

theorem encIdx4 (b : Nat) : b &&& 63 < 64 := by
  rw [and_63_eq]
  omega

theorem decodeByte1 (b1 b2 : Nat) (h1 : b1 < 256) (h2 : b2 < 256) :
    ((b1 >>> 2) <<< 2) + ((((b1 &&& 3) <<< 4) + (b2 >>> 4)) >>> 4) = b1 := by
  simp only [Nat.shiftLeft_eq, Nat.shiftRight_eq_div_pow, and_3_eq]
  norm_num
  omega

theorem decodeByte1t (b1 : Nat) (h1 : b1 < 256) :
    ((b1 >>> 2) <<< 2) + (((b1 &&& 3) <<< 4) >>> 4) = b1 := by
  simp only [Nat.shiftLeft_eq, Nat.shiftRight_eq_div_pow, and_3_eq]
  norm_num
  omega

theorem decodeByte2 (b1 b2 b3 : Nat) (h1 : b1 < 256) (h2 : b2 < 256) (h3 : b3 < 256) :
    (((((b1 &&& 3) <<< 4) + (b2 >>> 4)) &&& 15) <<< 4) +
      ((((b2 &&& 15) <<< 2) + (b3 >>> 6)) >>> 2) = b2 := by
  simp only [Nat.shiftLeft_eq, Nat.shiftRight_eq_div_pow, and_3_eq, and_15_eq]
  norm_num
  omega

theorem decodeByte2t (b1 b2 : Nat) (h1 : b1 < 256) (h2 : b2 < 256) :
    (((((b1 &&& 3) <<< 4) + (b2 >>> 4)) &&& 15) <<< 4) +
      (((b2 &&& 15) <<< 2) >>> 2) = b2 := by
  simp only [Nat.shiftLeft_eq, Nat.shiftRight_eq_div_pow, and_3_eq, and_15_eq]
  norm_num
  omega

theorem decodeByte3 (b2 b3 : Nat) (h2 : b2 < 256) (h3 : b3 < 256) :
    (((((b2 &&& 15) <<< 2) + (b3 >>> 6)) &&& 3) <<< 6) + (b3 &&& 63) = b3 := by
  simp only [Nat.shiftLeft_eq, Nat.shiftRight_eq_div_pow, and_3_eq, and_15_eq, and_63_eq]
  norm_num
  omega

/-! ### Alphabet facts -/

/-- Decoding a character of the alphabet recovers its index. -/
theorem num64_enc : ∀ k < 64, num64OfBase64 (BASE64.getD k ' ').toNat = k := by decide

/-- No alphabet character is the padding character. -/
theorem enc_ne_pad : ∀ k < 64, BASE64.getD k ' ' ≠ '=' := by decide

/-! ### Padding-count lemmas -/

theorem countLeadingEq_le (l : List Char) : countLeadingEq l ≤ l.length := by
  induction l with
  | nil => simp [countLeadingEq]
  | cons c rest ih =>
    rw [countLeadingEq]
    by_cases h : c = '='
    · rw [if_pos h]
      simp only [List.length_cons]
      omega
    · rw [if_neg h]
      simp

theorem countLeadingEq_eq_length (l : List Char) (h : countLeadingEq l = l.length) :
    ∀ c ∈ l, c = '=' := by
  induction l with
  | nil => simp
  | cons c rest ih =>
    rw [countLeadingEq] at h
    by_cases hc : c = '='
    · rw [if_pos hc] at h
      simp only [List.length_cons] at h
      intro x hx
      rcases List.mem_cons.mp hx with hx | hx
      · rw [hx, hc]
      · exact ih (by omega) x hx
    · rw [if_neg hc] at h
      have := countLeadingEq_le rest
      simp only [List.length_cons] at h
      omega

theorem countLeadingEq_append (A B : List Char) (h : countLeadingEq A < A.length) :
    countLeadingEq (A ++ B) = countLeadingEq A := by
  induction A with
  | nil => simp at h
  | cons c rest ih =>
    rw [List.cons_append, countLeadingEq, countLeadingEq]
    by_cases hc : c = '='
    · rw [if_pos hc, if_pos hc]
      rw [countLeadingEq, if_pos hc] at h
      simp only [List.length_cons] at h
      rw [ih (by omega)]
    · rw [if_neg hc, if_neg hc]

/-! ### Shape lemmas about the encoder -/

/-- The encoder output length is always a multiple of 4. -/
theorem base64OfArray_len : ∀ l : List Nat, (base64OfArray l).length % 4 = 0
  | [] => by rw [base64OfArray]; rfl
  | [_] => by rw [base64OfArray]; simp
  | [_, _] => by rw [base64OfArray]; simp
  | _ :: _ :: _ :: rest => by
      rw [base64OfArray]
      simp only [List.length_cons]
      have := base64OfArray_len rest
      omega
termination_by l => l.length

/-- Any nonempty encoder output starts with the alphabet character of the
first 6 bits. -/
theorem base64OfArray_head (b : Nat) (rest : List Nat) :
    ∃ t, base64OfArray (b :: rest) = BASE64.getD (b >>> 2) ' ' :: t := by
  match rest with
  | [] => exact ⟨_, rfl⟩
  | [_] => exact ⟨_, rfl⟩
  | _ :: _ :: _ => exact ⟨_, rfl⟩

theorem getElemD_eq_getD (l : List Char) (i : Nat) : (l[i]?).getD ' ' = l.getD i ' ' :=
  Eq.symm (List.getD_eq_getElem?_getD l i ' ')

theorem take_four {α : Type} (k : Nat) (a b c d : α) (X : List α) :
    List.take (k + 4) (a :: b :: c :: d :: X) = a :: b :: c :: d :: List.take k X := rfl

theorem drop_four {α : Type} (k : Nat) (a b c d : α) (X : List α) :
    List.drop (k + 4) (a :: b :: c :: d :: X) = List.drop k X := rfl

/-- Peeling one full quad off the front of the decoder input: for any tail
whose length is a multiple of 4 and whose first character (if any) is not
padding, decoding `quad ++ E` decodes the quad into three bytes and
recurses on `E`. -/
theorem arrayOfBase64_quad (c1 c2 c3 c4 : Char) (E : List Char)
    (hc4 : c4 ≠ '=') (hE4 : E.length % 4 = 0)
    (hEhead : ∀ c t, E = c :: t → c ≠ '=') :
    arrayOfBase64 (c1 :: c2 :: c3 :: c4 :: E) =
      ((num64OfBase64 c1.toNat <<< 2) + (num64OfBase64 c2.toNat >>> 4)) ::
      (((num64OfBase64 c2.toNat &&& 15) <<< 4) + (num64OfBase64 c3.toNat >>> 2)) ::
      (((num64OfBase64 c3.toNat &&& 3) <<< 6) + num64OfBase64 c4.toNat) ::
      arrayOfBase64 E := by
  cases E with
  | nil =>
    simp only [arrayOfBase64, determinePadding, List.reverse_cons, List.reverse_nil,
      List.nil_append, List.cons_append]
    rw [countLeadingEq, if_neg hc4]
    simp [decodeQuads, lastQuadBytes, countLeadingEq]
  | cons c t =>
    have hc : c ≠ '=' := hEhead c t rfl
    have hpad : determinePadding (c1 :: c2 :: c3 :: c4 :: c :: t) =
        determinePadding (c :: t) := by
      unfold determinePadding
      have hrev : (c1 :: c2 :: c3 :: c4 :: c :: t).reverse =
          (c :: t).reverse ++ [c4, c3, c2, c1] := by
        simp
      rw [hrev]
      apply countLeadingEq_append
      rcases lt_or_eq_of_le (countLeadingEq_le ((c :: t).reverse)) with h | h
      · exact h
      · exfalso
        exact hc (countLeadingEq_eq_length _ h c (by simp))
    obtain ⟨m, hm⟩ : ∃ m, (c :: t).length = 4 * m := ⟨(c :: t).length / 4, by
      have := hE4
      simp only [List.length_cons] at this ⊢
      omega⟩
    have hm1 : 1 ≤ m := by
      have : (c :: t).length ≠ 0 := by simp
      omega
    have hlenq : (c1 :: c2 :: c3 :: c4 :: c :: t).length = 4 * m + 4 := by
      simp only [List.length_cons] at hm ⊢
      omega
    simp only [arrayOfBase64, hpad, hlenq, hm]
    by_cases hp : determinePadding (c :: t) = 0
    · rw [if_pos hp, if_pos hp]
      have e1 : (4 * m + 4) / 4 * 4 = m * 4 + 4 := by omega
      have e2 : 4 * m / 4 * 4 = m * 4 := by omega
      rw [e1, e2, take_four, drop_four]
      rw [decodeQuads]
      simp [List.cons_append]
    · rw [if_neg hp, if_neg hp]
      have e1 : ((4 * m + 4) / 4 - 1) * 4 = (m - 1) * 4 + 4 := by omega
      have e2 : (4 * m / 4 - 1) * 4 = (m - 1) * 4 := by omega
      rw [e1, e2, take_four, drop_four]
      rw [decodeQuads]
      simp [List.cons_append]

/-- Claim C9: decoding the base64 encoding of any byte array (entries
below 256, including leading zero bytes) returns the original array. -/
theorem claimC9_base64_roundtrip :
    ∀ bytes : List Nat, (∀ b ∈ bytes, b < 256) →
      arrayOfBase64 (base64OfArray bytes) = bytes
  | [], _ => rfl
  | [b1], h => by
    have hb1 : b1 < 256 := h b1 (by simp)
    have hi1 : b1 >>> 2 < 64 := encIdx1 b1 hb1
    have hi2 : (b1 &&& 3) <<< 4 < 64 := encIdx2t b1 hb1
    have hne2 : BASE64.getD ((b1 &&& 3) <<< 4) ' ' ≠ '=' := enc_ne_pad _ hi2
    rw [base64OfArray]
    simp only [arrayOfBase64, determinePadding, List.reverse_cons, List.reverse_nil,
      List.nil_append, List.cons_append, List.singleton_append, List.length_cons,
      List.length_nil]
    rw [countLeadingEq, if_pos rfl, countLeadingEq, if_pos rfl, countLeadingEq, if_neg hne2]
    norm_num [lastQuadBytes, decodeQuads]
    simp only [getElemD_eq_getD]
    rw [num64_enc _ hi1, num64_enc _ hi2]
    exact decodeByte1t b1 hb1
  | [b1, b2], h => by
    have hb1 : b1 < 256 := h b1 (by simp)
    have hb2 : b2 < 256 := h b2 (by simp)
    have hi1 : b1 >>> 2 < 64 := encIdx1 b1 hb1
    have hi2 : ((b1 &&& 3) <<< 4) + (b2 >>> 4) < 64 := encIdx2 b1 b2 hb1 hb2
    have hi3 : (b2 &&& 15) <<< 2 < 64 := encIdx3t b2 hb2
    have hne3 : BASE64.getD ((b2 &&& 15) <<< 2) ' ' ≠ '=' := enc_ne_pad _ hi3
    rw [base64OfArray]
    simp only [arrayOfBase64, determinePadding, List.reverse_cons, List.reverse_nil,
      List.nil_append, List.cons_append, List.singleton_append, List.length_cons,
      List.length_nil]
    rw [countLeadingEq, if_pos rfl, countLeadingEq, if_neg hne3]
    norm_num [lastQuadBytes, decodeQuads]
    simp only [getElemD_eq_getD]
    rw [num64_enc _ hi1, num64_enc _ hi2, num64_enc _ hi3]
    exact ⟨decodeByte1 b1 b2 hb1 hb2, decodeByte2t b1 b2 hb1 hb2⟩
  | b1 :: b2 :: b3 :: rest, h => by
    have hb1 : b1 < 256 := h b1 (by simp)
    have hb2 : b2 < 256 := h b2 (by simp)
    have hb3 : b3 < 256 := h b3 (by simp)
    have hi1 : b1 >>> 2 < 64 := encIdx1 b1 hb1
    have hi2 : ((b1 &&& 3) <<< 4) + (b2 >>> 4) < 64 := encIdx2 b1 b2 hb1 hb2
    have hi3 : ((b2 &&& 15) <<< 2) + (b3 >>> 6) < 64 := encIdx3 b2 b3 hb2 hb3
    have hi4 : b3 &&& 63 < 64 := encIdx4 b3
    rw [base64OfArray]
    rw [arrayOfBase64_quad _ _ _ _ _ (enc_ne_pad _ hi4) (base64OfArray_len rest) ?_]
    · rw [num64_enc _ hi1, num64_enc _ hi2, num64_enc _ hi3, num64_enc _ hi4]
      rw [decodeByte1 b1 b2 hb1 hb2, decodeByte2 b1 b2 b3 hb1 hb2 hb3,
        decodeByte3 b2 b3 hb2 hb3]
      rw [claimC9_base64_roundtrip rest (fun b hb => h b (by simp [hb]))]
    · intro c t hE
      match rest, hE with
      | r :: rs, hE =>
        obtain ⟨t', ht'⟩ := base64OfArray_head r rs
        rw [ht'] at hE
        have hr : r < 256 := h r (by simp)
        have := enc_ne_pad _ (encIdx1 r hr)
        injection hE with h1 h2
        rw [h1] at this
        exact this
termination_by bytes => bytes.length

/-- Witness for C9 at the byte array `[0, 255, 7, 9]` (leading zero byte
included). -/
theorem claimC9_base64_roundtrip_witness :
    arrayOfBase64 (base64OfArray [0, 255, 7, 9]) = [0, 255, 7, 9] :=
  claimC9_base64_roundtrip [0, 255, 7, 9] (by decide)

/-! ## SRP client engine (SecureRemotePassword) -/

/-- The source's `ValResult<T>`: `{isOk: true, value}` or
`{isOk: false, errMsg}`. -/
inductive ValResult (α : Type) where
  | success (value : α)
  | failure (errMsg : String)

/-- The source's `DataForSignIn`: `{AB64, M1B64}`. -/
structure DataForSignIn where
  AB64 : List Char
  M1B64 : List Char

/-- The mutable and constructor-set fields of a `SecureRemotePassword`
session.  Strings holding hex or base64 data are `List Char`; big integers
are `Int`. -/
structure Session where
  verifier : Int
  I : List Char
  S : Int
  B : Int
  P : List Char
  K : List Char
  AHex : List Char
  M1Hex : List Char
  salt : List Char
  k : Int
  g : Int
  N : Int

/-- A session as the constructor leaves it: the group parameters parsed
into big integers, every other field at its initializer (`ZERO` or the
empty string). -/
def initSession (N g k : Int) : Session :=
  { verifier := 0, I := [], S := 0, B := 0, P := [], K := [], AHex := [], M1Hex := [],
    salt := [], k := k, g := g, N := N }

/-- `BI.BigInt("0x" ++ digits)` on a lowercase hex digit string: the value
of the digits read against `HEX_DIGITS`. -/
def parseHexDigits (l : List Char) : Int :=
  l.foldl (fun acc c => acc * 16 + (HEX_DIGITS.indexOf c : Int)) 0

/-- The `Array.from(bytes).map(b => HEX_DIGITS[b >> 4] + HEX_DIGITS[b & 15]).join("")`
idiom shared by `prefixedHexOfArray`, `prefixedHexOfBuff` and
`bigintOfBase64`. -/
def hexFromDigitsMap (bytes : List Nat) : List Char :=
  (bytes.map (fun b => [HEX_DIGITS.getD (b >>> 4) '0', HEX_DIGITS.getD (b &&& 15) '0'])).join

/-- `BI.BigInt("0x" ++ digits)` on a string of lowercase hex digits: JSBI,
like native `BigInt`, throws a `SyntaxError` when nothing follows the
`0x` prefix, i.e. exactly when the digit string is empty; otherwise it
parses the digits. -/
def parseBigIntHex (digits : List Char) : Except String Int :=
  if digits = [] then .error "Cannot convert 0x to a BigInt"
  else .ok (parseHexDigits digits)

/-- `bigintOfBase64` from the source: decode the base64 into bytes, hex
them with the digit table, and parse `"0x" ++ hex` as a big integer —
which throws (`SyntaxError`) when the base64 decoded to zero bytes, e.g.
on the empty input string. -/
def bigintOfBase64 (inp : List Char) : Except String Int :=
  parseBigIntHex (hexFromDigitsMap (arrayOfBase64 inp))

/-- `nonprefixedHexOfPositiveBI` from the source: `toString(16)`, then the
even-length fix-up (drop a leading `'0'` or prepend one). -/
def nonprefixedHexOfPositiveBI (inp : Int) : List Char :=
  let str := natToHex inp.toNat
  if str.length % 2 = 0 then str
  else if str.take 1 = ['0'] then str.drop 1
  else '0' :: str

/-- The pair-splitting of `base64OfHex`: `inp.match(/../g)` yields the
consecutive two-character groups (a trailing lone character matches
nothing), and each group is parsed with `parseInt(h, 16)`. -/
def hexPairsToBytes : List Char → List Nat
  | c1 :: c2 :: rest => (HEX_DIGITS.indexOf c1 * 16 + HEX_DIGITS.indexOf c2) :: hexPairsToBytes rest
  | _ => []

/-- `base64OfHex` from the source. -/
def base64OfHex (inp : List Char) : List Char :=
  base64OfArray (hexPairsToBytes inp)

/-- `generateX` from the source:
`x = BigInt(H(uppercase(saltHex ++ H(identity ++ ":" ++ pw)))) rem N`.
The digest `H` is the external hash primitive; the `BigInt` parse of its
`"0x"`-prefixed hex throws when the digest is empty. -/
def generateX (H : List Char → List Nat) (saltHex identity pw : List Char) (N : Int) :
    Except String Int :=
  let hash1 := hexOfArray (H (identity ++ [':'] ++ pw))
  let concat := (saltHex ++ hash1).map Char.toUpper
  match parseBigIntHex (hexFromDigitsMap (H concat)) with
  | .error e => .error e
  | .ok v => .ok (Int.tmod v N)

/-- The value `generateX` computes when its `BigInt` parse succeeds (the
digest is nonempty, as it always is for a fixed-length hash). -/
def xValue (H : List Char → List Nat) (saltHex identity pw : List Char) (N : Int) : Int :=
  let hash1 := hexOfArray (H (identity ++ [':'] ++ pw))
  let concat := (saltHex ++ hash1).map Char.toUpper
  Int.tmod (parseHexDigits (hexFromDigitsMap (H concat))) N

/-- The big-integer value `computeU` builds from the digest of
`AHex ++ BHex` (when its `BigInt` parse succeeds) before the zero test. -/
def uValue (H : List Char → List Nat) (AHex BHex : List Char) : Int :=
  parseHexDigits (hexFromDigitsMap (H (AHex ++ BHex)))

/-- `computeU` from the source: parse the `"0x"`-prefixed hex of the
digest of `AHex ++ BHex` (a throw propagates), and return `undefined`
(here `.ok none`) when the value is zero. -/
def computeU (H : List Char → List Nat) (AHex BHex : List Char) :
    Except String (Option Int) :=
  match parseBigIntHex (hexFromDigitsMap (H (AHex ++ BHex))) with
  | .error e => .error e
  | .ok result => if result = 0 then .ok none else .ok (some result)

/-- `posMod` from the source: smallest non-negative remainder. -/
def posMod (inp N : Int) : Int :=
  let rem := Int.tmod inp N
  if 0 ≤ rem then rem else rem + N

/-- `computeSessionKey` from the source:
`((B - k*verifier) posMod N) ^ (a + u*x) mod N`, through the kernel's
`modPow`. -/
def computeSessionKey (s : Session) (x u a : Int) : Option (Except String Int) :=
  let exp := a + u * x
  let kv := s.k * s.verifier
  let diff := posMod (s.B - kv) s.N
  modPow diff exp s.N

/-- `step1` from the source, with the session mutations threaded
explicitly.  The ephemeral private key `a` stands for the value the
`randomA()` draw produced (`randomA` loops until its reduced draw is
nonzero, so `0 < a < N`); `H` is the external digest.  A `RangeError`
escaping from `modPow`, or a `SyntaxError` escaping from a `BigInt` parse
(`bigintOfBase64`, `generateX`, `computeU`), is `.error`; `none` is the
`modPow` zero-exponent divergence. -/
def step1 (H : List Char → List Nat) (s0 : Session) (identity password : List Char)
    (saltB64 serverBB64 : List Char) (a : Int) :
    Option (Except String (ValResult DataForSignIn × Session)) :=
  let s1 := { s0 with I := identity, P := password }
  match modPow s1.g a s1.N with
  | none => none
  | some (.error e) => some (.error e)
  | some (.ok ANum) =>
    match bigintOfBase64 serverBB64 with
    | .error e => some (.error e)
    | .ok Bval =>
      let s2 := { s1 with B := Bval }
      if Int.tmod s2.B s2.N = 0 then
        some (.ok (.failure "Bad server public value B = 0", s2))
      else
      match generateX H (hexOfBase64 saltB64) s2.I s2.P s2.N with
      | .error e => some (.error e)
      | .ok x =>
      let s3 := { s2 with AHex := nonprefixedHexOfPositiveBI ANum }
      match computeU H s3.AHex (hexOfBase64 serverBB64) with
      | .error e => some (.error e)
      | .ok none => some (.ok (.failure "Bad client value u", s3))
      | .ok (some u) =>
        match modPow s3.g x s3.N with
        | none => none
        | some (.error e) => some (.error e)
        | some (.ok v) =>
          let s4 := { s3 with verifier := v }
          match computeSessionKey s4 x u a with
          | none => none
          | some (.error e) => some (.error e)
          | some (.ok SKey) =>
            let s5 := { s4 with S := SKey }
            let sStr := nonprefixedHexOfPositiveBI s5.S
            let s6 := { s5 with K := hexOfArray (H sStr) }
            let M1 := hexOfArray (H (s6.AHex ++ nonprefixedHexOfPositiveBI s6.B ++ sStr))
            let s7 := { s6 with M1Hex := M1 }
            some (.ok (.success ⟨base64OfHex s7.AHex, base64OfHex s7.M1Hex⟩, s7))

/-- `step2` from the source: recompute the expected M2 from the retained
`AHex`, `M1Hex` and `S`, compare against the canonical hex of the decoded
server value, and return the raw `S` on a match.  No session field is
assigned, which the explicit state threading records by returning the
session unchanged in both branches. -/
def step2 (H : List Char → List Nat) (s : Session) (serverM2B64 : List Char) :
    ValResult Int × Session :=
  let SHex := nonprefixedHexOfPositiveBI s.S
  let clientM2Hex := hexOfArray (H (s.AHex ++ s.M1Hex ++ SHex))
  let serverM2Hex := hexOfBase64 serverM2B64
  if clientM2Hex ≠ serverM2Hex then (.failure "Bad server credentials (M2)", s)
  else (.success s.S, s)

/-! ### Engine lemmas and claim theorems -/

theorem foldl_hex_nonneg :
    ∀ (l : List Char) (acc : Int), 0 ≤ acc →
      0 ≤ l.foldl (fun acc c => acc * 16 + (HEX_DIGITS.indexOf c : Int)) acc
  | [], _, h => by simpa using h
  | c :: rest, acc, h => by
    rw [List.foldl_cons]
    refine foldl_hex_nonneg rest _ ?_
    have h1 : (0 : Int) ≤ acc * 16 := by linarith
    have h2 : (0 : Int) ≤ (HEX_DIGITS.indexOf c : Int) := Int.ofNat_nonneg _
    linarith

theorem parseHexDigits_nonneg (l : List Char) : 0 ≤ parseHexDigits l :=
  foldl_hex_nonneg l 0 le_rfl

theorem uValue_nonneg (H : List Char → List Nat) (AHex BHex : List Char) :
    0 ≤ uValue H AHex BHex :=
  parseHexDigits_nonneg _

theorem xValue_nonneg (H : List Char → List Nat) (saltHex identity pw : List Char)
    (N : Int) : 0 ≤ xValue H saltHex identity pw N :=
  Int.tmod_nonneg N (parseHexDigits_nonneg _)

/-- Hexing a nonempty byte list yields a nonempty digit string. -/
theorem hexFromDigitsMap_ne_nil (l : List Nat) (h : l ≠ []) : hexFromDigitsMap l ≠ [] := by
  match l with
  | [] => exact absurd rfl h
  | b :: t => simp [hexFromDigitsMap]

/-- The `BigInt` parse succeeds on the hex of any nonempty byte list. -/
theorem parseBigIntHex_ok (l : List Nat) (h : l ≠ []) :
    parseBigIntHex (hexFromDigitsMap l) = .ok (parseHexDigits (hexFromDigitsMap l)) := by
  unfold parseBigIntHex
  rw [if_neg (hexFromDigitsMap_ne_nil l h)]

/-- With a digest that never returns an empty buffer (every fixed-length
hash), `generateX` returns its value. -/
theorem generateX_ok (H : List Char → List Nat) (saltHex identity pw : List Char)
    (N : Int) (hH : ∀ l, H l ≠ []) :
    generateX H saltHex identity pw N = .ok (xValue H saltHex identity pw N) := by
  unfold generateX xValue
  dsimp only
  rw [parseBigIntHex_ok _ (hH _)]

/-- `computeU` returns `undefined` exactly on a zero value (nonempty
digest case). -/
theorem computeU_eq_none (H : List Char → List Nat) (AHex BHex : List Char)
    (hne : H (AHex ++ BHex) ≠ []) (hu : uValue H AHex BHex = 0) :
    computeU H AHex BHex = .ok none := by
  unfold computeU
  rw [parseBigIntHex_ok _ hne]
  dsimp only
  rw [if_pos (show parseHexDigits (hexFromDigitsMap (H (AHex ++ BHex))) = 0 from hu)]

/-- `computeU` returns its nonzero value (nonempty digest case). -/
theorem computeU_eq_some (H : List Char → List Nat) (AHex BHex : List Char)
    (hne : H (AHex ++ BHex) ≠ []) (hu : uValue H AHex BHex ≠ 0) :
    computeU H AHex BHex = .ok (some (uValue H AHex BHex)) := by
  unfold computeU
  rw [parseBigIntHex_ok _ hne]
  dsimp only
  rw [if_neg (show ¬ parseHexDigits (hexFromDigitsMap (H (AHex ++ BHex))) = 0 from hu)]
  rfl

/-- Claim C10: `step2` writes no session field — on success and on failure
the session comes back unchanged — so a second call with the same argument
returns the same result. -/
theorem claimC10_step2_frame (H : List Char → List Nat) (s : Session) (m2 : List Char) :
    (step2 H s m2).2 = s ∧ (step2 H s m2).1 = (step2 H (step2 H s m2).2 m2).1 := by
  have h2 : (step2 H s m2).2 = s := by
    unfold step2
    dsimp only
    split
    · rfl
    · rfl
  exact ⟨h2, by rw [h2]⟩

/-- Claim C4: `step2` compares the decoded server M2 against
`H(AHex ++ M1Hex ++ hex(S))` computed from the retained session fields,
fails with exactly the credential-mismatch message when they differ, and
returns the raw premaster secret `S` (not the hashed key `K`) when they
match. -/
theorem claimC4_step2_compare (H : List Char → List Nat) (s : Session) (m2 : List Char) :
    ((step2 H s m2).1 = .failure "Bad server credentials (M2)" ↔
      hexOfBase64 m2 ≠ hexOfArray (H (s.AHex ++ s.M1Hex ++ nonprefixedHexOfPositiveBI s.S))) ∧
    (hexOfBase64 m2 = hexOfArray (H (s.AHex ++ s.M1Hex ++ nonprefixedHexOfPositiveBI s.S)) →
      (step2 H s m2).1 = .success s.S) := by
  unfold step2
  dsimp only
  constructor
  · constructor
    · intro h1
      by_cases hc : hexOfArray (H (s.AHex ++ s.M1Hex ++ nonprefixedHexOfPositiveBI s.S)) ≠
          hexOfBase64 m2
      · exact fun hcc => hc hcc.symm
      · rw [if_neg hc] at h1
        exact absurd h1 (by simp)
    · intro h1
      rw [if_pos (fun hcc => h1 hcc.symm)]
  · intro h1
    rw [if_neg (by simp [h1])]

/-- Witness for C4: the all-empty digest and an empty server M2 agree with
the sentinel session, so `step2` returns the raw `S`. -/
theorem claimC4_step2_compare_witness :
    (step2 (fun _ => []) (initSession 7 3 5) []).1 = .success 0 := by
  have h := (claimC4_step2_compare (fun _ => []) (initSession 7 3 5) []).2
    (by simp [hexOfBase64, trimHexZeroes, countLeadingZeroes, hexOfArray, arrayOfBase64,
      determinePadding, countLeadingEq, lastQuadBytes, decodeQuads])
  simpa [initSession] using h

/-- The hex rendering of the zero big integer is the empty string
(`"0".substring(1)`). -/
theorem nonprefixedHex_zero : nonprefixedHexOfPositiveBI 0 = [] := by
  simp [nonprefixedHexOfPositiveBI, natToHex, HEX_DIGITS]

/-- Claim C5 counterexample: on a fresh session (no step 1 at all) with a
digest that hashes everything to the byte 1, `step2` is not rejected as a
programming error: it runs the ordinary comparison and returns exactly the
authentication-failure outcome the claim says it must be distinct from. -/
theorem claimC5_counterexample :
    step2 (fun _ => [1]) (initSession 7 3 5) [] =
      (.failure "Bad server credentials (M2)", initSession 7 3 5) := by
  unfold step2
  rw [show (initSession 7 3 5).S = 0 from rfl, nonprefixedHex_zero]
  simp [initSession, hexOfArray, padZeroPrefix, natToHex, HEX_DIGITS, hexOfBase64,
    trimHexZeroes, countLeadingZeroes, arrayOfBase64, determinePadding, countLeadingEq,
    lastQuadBytes, decodeQuads]

/-- Claim C5 as amended: `step2` performs no step-1 precondition check.
On a session in its constructor state it simply compares the decoded
server M2 with the digest of the sentinel fields
(`AHex = M1Hex = ""`, `S = 0`, whose hex is also empty) and returns the
ordinary credential-mismatch failure on a difference — or `S = 0` as a
success on a match — never a distinct programming-error rejection. -/
theorem claimC5_step2_no_precondition (H : List Char → List Nat) (N g k : Int)
    (m2 : List Char) :
    step2 H (initSession N g k) m2 =
      (if hexOfArray (H []) ≠ hexOfBase64 m2 then .failure "Bad server credentials (M2)"
       else .success 0, initSession N g k) := by
  unfold step2
  rw [show (initSession N g k).S = 0 from rfl, nonprefixedHex_zero]
  rw [show (initSession N g k).AHex = [] from rfl, show (initSession N g k).M1Hex = [] from rfl]
  simp only [List.append_nil, List.nil_append]
  split
  · rfl
  · rfl

/-- With a modulus above 1 and a positive exponent the session-key
computation succeeds and is the expected power. -/
theorem computeSessionKey_ok (s : Session) (x u a : Int) (hN : 1 < s.N)
    (hexp : 0 < a + u * x) :
    computeSessionKey s x u a =
      some (.ok ((posMod (s.B - s.k * s.verifier) s.N) ^ (a + u * x).toNat % s.N)) := by
  unfold computeSessionKey
  exact modPow_pos _ _ _ hN hexp

/-- Claim C1: under the session preconditions (`N > 1` from the group
parameters, `0 < a` from the `randomA()` rejection loop, a digest of
fixed positive output length), whenever the server value decodes to a big
integer `B` (the decode itself throws a `SyntaxError` on zero bytes, see
`bigintOfBase64`): `step1` returns the `isOk: false` outcome
"Bad server public value B = 0" when `B mod N = 0`; returns the
`isOk: false` outcome "Bad client value u" when `B mod N ≠ 0` but the
scrambling value `u` derived from `H(AHex ++ BHex)` is zero; and in the
remaining cases — provided the derived credential exponent `x` is nonzero
(`x = 0` hits the `modPow` zero-exponent divergence of C3 instead) —
returns an `isOk: true` payload whose fields are the base64 renderings of
the canonical hex of `A = g^a mod N` and of the `M1` digest retained on
the session. -/
theorem claimC1_step1_outcomes (H : List Char → List Nat) (s : Session)
    (identity password saltB64 serverBB64 : List Char) (a : Int)
    (hN : 1 < s.N) (ha : 0 < a) (hH : ∀ l, H l ≠ []) :
    (∀ B, bigintOfBase64 serverBB64 = .ok B → Int.tmod B s.N = 0 →
      ∃ s', step1 H s identity password saltB64 serverBB64 a =
        some (.ok (.failure "Bad server public value B = 0", s'))) ∧
    (∀ B, bigintOfBase64 serverBB64 = .ok B → Int.tmod B s.N ≠ 0 →
      uValue H (nonprefixedHexOfPositiveBI (s.g ^ a.toNat % s.N)) (hexOfBase64 serverBB64) = 0 →
      ∃ s', step1 H s identity password saltB64 serverBB64 a =
        some (.ok (.failure "Bad client value u", s'))) ∧
    (∀ B, bigintOfBase64 serverBB64 = .ok B → Int.tmod B s.N ≠ 0 →
      uValue H (nonprefixedHexOfPositiveBI (s.g ^ a.toNat % s.N)) (hexOfBase64 serverBB64) ≠ 0 →
      xValue H (hexOfBase64 saltB64) identity password s.N ≠ 0 →
      ∃ d s', step1 H s identity password saltB64 serverBB64 a =
        some (.ok (.success d, s')) ∧
        d.AB64 = base64OfHex s'.AHex ∧ d.M1B64 = base64OfHex s'.M1Hex ∧
        s'.AHex = nonprefixedHexOfPositiveBI (s.g ^ a.toNat % s.N) ∧
        s'.M1Hex = hexOfArray (H (s'.AHex ++ nonprefixedHexOfPositiveBI B ++
          nonprefixedHexOfPositiveBI s'.S))) := by
  have hg : modPow s.g a s.N = some (.ok (s.g ^ a.toNat % s.N)) := modPow_pos s.g a s.N hN ha
  refine ⟨?_, ?_, ?_⟩
  · intro B hB hB0
    unfold step1
    dsimp only
    rw [hg]
    dsimp only
    rw [hB]
    dsimp only
    rw [if_pos hB0]
    exact ⟨_, rfl⟩
  · intro B hB hB0 hu
    unfold step1
    dsimp only
    rw [hg]
    dsimp only
    rw [hB]
    dsimp only
    rw [if_neg hB0]
    rw [generateX_ok H (hexOfBase64 saltB64) identity password s.N hH]
    dsimp only
    rw [computeU_eq_none H (nonprefixedHexOfPositiveBI (s.g ^ a.toNat % s.N))
      (hexOfBase64 serverBB64) (hH _) hu]
    exact ⟨_, rfl⟩
  · intro B hB hB0 hu hx
    have hx' : 0 < xValue H (hexOfBase64 saltB64) identity password s.N :=
      lt_of_le_of_ne (xValue_nonneg H _ _ _ _) (Ne.symm hx)
    have hu' : 0 < uValue H (nonprefixedHexOfPositiveBI (s.g ^ a.toNat % s.N))
        (hexOfBase64 serverBB64) :=
      lt_of_le_of_ne (uValue_nonneg H _ _) (Ne.symm hu)
    have hgx : modPow s.g (xValue H (hexOfBase64 saltB64) identity password s.N) s.N =
        some (.ok (s.g ^ (xValue H (hexOfBase64 saltB64) identity password s.N).toNat
          % s.N)) :=
      modPow_pos _ _ _ hN hx'
    have hexp : 0 < a + uValue H (nonprefixedHexOfPositiveBI (s.g ^ a.toNat % s.N))
        (hexOfBase64 serverBB64) * xValue H (hexOfBase64 saltB64) identity password s.N :=
      by nlinarith
    unfold step1
    dsimp only
    rw [hg]
    dsimp only
    rw [hB]
    dsimp only
    rw [if_neg hB0]
    rw [generateX_ok H (hexOfBase64 saltB64) identity password s.N hH]
    dsimp only
    rw [computeU_eq_some H (nonprefixedHexOfPositiveBI (s.g ^ a.toNat % s.N))
      (hexOfBase64 serverBB64) (hH _) hu]
    dsimp only
    rw [hgx]
    dsimp only
    rw [computeSessionKey_ok]
    exacts [⟨_, _, rfl, rfl, rfl, rfl, rfl⟩, hN, hexp]

/-- Witness for C1, on the group `N = 7, g = 3, k = 5` with ephemeral key
1: server value `"AA=="` decodes to `B = 0` and triggers the first
failure; a digest hashing everything to the zero byte makes `u = 0` and,
with `"AQ=="` (`B = 1`), triggers the second; a digest hashing everything
to the byte 1 with `"AQ=="` reaches the success payload carrying
`A = 3` (hex `"03"`) and the `M1` digest as base64. -/
theorem claimC1_step1_outcomes_witness :
    (∃ s', step1 (fun _ => [1]) (initSession 7 3 5) [] [] [] ['A', 'A', '=', '='] 1 =
      some (.ok (.failure "Bad server public value B = 0", s'))) ∧
    (∃ s', step1 (fun _ => [0]) (initSession 7 3 5) [] [] [] ['A', 'Q', '=', '='] 1 =
      some (.ok (.failure "Bad client value u", s'))) ∧
    (∃ d s', step1 (fun _ => [1]) (initSession 7 3 5) [] [] [] ['A', 'Q', '=', '='] 1 =
      some (.ok (.success d, s')) ∧
      d.AB64 = base64OfHex s'.AHex ∧ d.M1B64 = base64OfHex s'.M1Hex ∧
      s'.AHex = nonprefixedHexOfPositiveBI 3 ∧
      s'.M1Hex = hexOfArray ([1] : List Nat)) :=
  ⟨(claimC1_step1_outcomes (fun _ => [1]) (initSession 7 3 5) [] [] [] ['A', 'A', '=', '='] 1
      (by norm_num [initSession]) (by norm_num) (by intro l; simp)).1 0 (by rfl) (by decide),
   (claimC1_step1_outcomes (fun _ => [0]) (initSession 7 3 5) [] [] [] ['A', 'Q', '=', '='] 1
      (by norm_num [initSession]) (by norm_num) (by intro l; simp)).2.1 1 (by rfl) (by decide)
      (by decide),
   (claimC1_step1_outcomes (fun _ => [1]) (initSession 7 3 5) [] [] [] ['A', 'Q', '=', '='] 1
      (by norm_num [initSession]) (by norm_num) (by intro l; simp)).2.2 1 (by rfl) (by decide)
      (by decide) (by decide)⟩

/-- A digest instance (the engine is hash-agnostic per the spec) that
yields a nonzero scrambling value `u` but a zero credential exponent `x`:
it maps the 4-character input `AHex ++ BHex` to the byte 1 and everything
else — in particular the inner and outer `generateX` inputs — to the zero
byte. -/
def advHash (l : List Char) : List Nat :=
  if l.length = 4 then [1] else [0]

/-- Claim C1 counterexample: on the group `N = 7, g = 3, k = 5` with
ephemeral key 1, server value `"AQ=="` (so `B = 1`, `B mod N ≠ 0`) and the
digest `advHash` (so `u = 1 ≠ 0` but `x = 0`), the claim demands a success
payload, yet `step1` diverges (`none`): the recomputation of the verifier
runs `modPow(g, 0, N)`, whose self-recursion never terminates. -/
theorem claimC1_counterexample :
    bigintOfBase64 ['A', 'Q', '=', '='] = .ok 1 ∧
    Int.tmod 1 (initSession 7 3 5).N ≠ 0 ∧
    uValue advHash
      (nonprefixedHexOfPositiveBI
        ((initSession 7 3 5).g ^ (1 : Int).toNat % (initSession 7 3 5).N))
      (hexOfBase64 ['A', 'Q', '=', '=']) ≠ 0 ∧
    step1 advHash (initSession 7 3 5) [] [] [] ['A', 'Q', '=', '='] 1 = none := by
  have hnat1 : natToHex 1 = ['1'] := by rw [natToHex]; rfl
  have hnat0 : natToHex 0 = ['0'] := by rw [natToHex]; rfl
  have hnat3 : natToHex 3 = ['3'] := by rw [natToHex]; rfl
  have harr : arrayOfBase64 ['A', 'Q', '=', '='] = [1] := by decide
  have hhex1 : hexOfArray [1] = ['0', '1'] := by rw [hexOfArray, hexOfArray, hnat1]; rfl
  have hhex0 : hexOfArray [0] = ['0', '0'] := by rw [hexOfArray, hexOfArray, hnat0]; rfl
  have hBhex : hexOfBase64 ['A', 'Q', '=', '='] = ['0', '1'] := by
    unfold hexOfBase64
    rw [harr, hhex1]
    decide
  have hAhex : nonprefixedHexOfPositiveBI 3 = ['0', '3'] := by
    unfold nonprefixedHexOfPositiveBI
    rw [show ((3 : Int)).toNat = 3 from rfl, hnat3]
    decide
  have hu : uValue advHash ['0', '3'] ['0', '1'] = 1 := by decide
  have hsalthex : hexOfBase64 [] = [] := by decide
  have hadv : ∀ l, advHash l ≠ [] := by
    intro l
    unfold advHash
    split <;> simp
  have hx : generateX advHash (hexOfBase64 []) [] [] 7 = .ok 0 := by
    rw [hsalthex]
    unfold generateX
    rw [show hexOfArray (advHash ([] ++ [':'] ++ [])) = ['0', '0'] from by
      rw [show advHash ([] ++ [':'] ++ []) = [0] from by decide, hhex0]]
    rfl
  have hg : modPow (3 : Int) 1 7 = some (.ok 3) := by
    have h := modPow_pos (3 : Int) 1 7 (by norm_num) (by norm_num)
    norm_num at h
    exact h
  refine ⟨by rfl, by decide, ?_, ?_⟩
  · show uValue advHash (nonprefixedHexOfPositiveBI 3)
      (hexOfBase64 ['A', 'Q', '=', '=']) ≠ 0
    rw [hAhex, hBhex, hu]
    norm_num
  · unfold step1
    dsimp only [initSession]
    rw [hg]
    dsimp only
    rw [show bigintOfBase64 ['A', 'Q', '=', '='] = .ok 1 from rfl]
    dsimp only
    rw [if_neg (by decide)]
    rw [hx]
    dsimp only
    rw [show computeU advHash (nonprefixedHexOfPositiveBI 3)
        (hexOfBase64 ['A', 'Q', '=', '=']) =
        .ok (some (uValue advHash (nonprefixedHexOfPositiveBI 3)
          (hexOfBase64 ['A', 'Q', '=', '=']))) from by
      refine computeU_eq_some advHash _ _ (hadv _) ?_
      rw [hAhex, hBhex, hu]
      norm_num]
    dsimp only
    rw [show modPow (3 : Int) 0 7 = none from modPowG_zero_diverges 2 3 7 (by norm_num)]

end Srp
